import Mathlib

/-!
Verification development for the epub2cbz converter (`main.go`).

The program converts an EPUB archive (a zip) into a CBZ archive by
resolving the package document's spine through the manifest, parsing each
spine page's XHTML for image references, and copying the referenced image
entries into the output zip under normalized sequential names, optionally
followed by a `ComicInfo.xml` metadata entry.

The embedding below models the pipeline of `processFile` starting from the
decoded package document (`vol.opf`): XML decoding of `container.xml` and
of the package document is performed by Go's `encoding/xml` and is treated
as external input, so the model takes the package-document path and the
decoded `Package` value as arguments.  Likewise `html.Parse` is external:
a zip entry carries, besides its raw bytes, the parse tree that
`html.Parse` would return on those bytes (`none` for a parse error).

All path arithmetic (`filepath.Dir`, `filepath.Join`, `filepath.Ext`,
`filepath.Base`, `strings.TrimPrefix`) is modeled faithfully after the Go
standard library for a host whose path separator is the forward slash
(the separator used inside zip/EPUB archives); on such a host
`filepath.ToSlash` is the identity and `filepath.Clean` is `path.Clean`.
-/

namespace Epub

/-- Character-level split on a separator, mirroring how `path.Clean` walks
the path components; every returned group is free of the separator. -/
def splitCh (sep : Char) : List Char → List (List Char)
  | [] => [[]]
  | c :: cs =>
      match splitCh sep cs with
      | [] => [[]]
      | g :: gs => if c == sep then [] :: g :: gs else (c :: g) :: gs

/-- Joining of path components with single slashes (the shape `path.Clean`
emits for its output buffer). -/
def joinComps : List (List Char) → List Char
  | [] => []
  | [c] => c
  | c :: rest => c ++ '/' :: joinComps rest

/-- One step of `path.Clean`'s component processing: `..` pops a previous
real component, is dropped at the root, and accumulates at the front of a
relative path; everything else is pushed.  The stack is kept reversed. -/
def cleanStep (rooted : Bool) (stack : List (List Char)) (c : List Char) : List (List Char) :=
  if c == ['.', '.'] then
    match stack with
    | top :: rest => if top == ['.', '.'] then c :: stack else rest
    | [] => if rooted then [] else [c]
  else c :: stack

/-- Final assembly of `path.Clean`: an empty result becomes `/` or `.`,
otherwise the processed components are joined, with a root slash first
when the input was rooted. -/
def cleanAssemble (rooted : Bool) (stack : List (List Char)) : List Char :=
  match rooted, stack with
  | true, [] => ['/']
  | false, [] => ['.']
  | true, s => '/' :: joinComps s.reverse
  | false, s => joinComps s.reverse

/-- Model of Go `path.Clean` (= `filepath.Clean` with slash separator):
collapse repeated slashes, drop `.` components, resolve `..` lexically. -/
def cleanChars (cs : List Char) : List Char :=
  cleanAssemble (cs.head? == some '/')
    (((splitCh '/' cs).filter (fun c => !(c == []) && !(c == ['.']))).foldl
      (cleanStep (cs.head? == some '/')) [])

/-- Model of Go `filepath.Clean` on strings. -/
def goClean (s : String) : String := String.mk (cleanChars s.data)

/-- Prefix of the path up to and including the last slash (Go
`filepath.Split`'s directory part; empty when there is no slash). -/
def upToLastSlash (cs : List Char) : List Char :=
  ((cs.reverse.dropWhile (fun c => !(c == '/'))).reverse)

/-- Model of Go `filepath.Dir`: everything but the last element, cleaned. -/
def goDir (s : String) : String := String.mk (cleanChars (upToLastSlash s.data))

/-- Model of the two-argument Go `filepath.Join`: empty elements are
skipped, the rest are joined with a slash and cleaned; all-empty gives "". -/
def goJoin (a b : String) : String :=
  match a == "", b == "" with
  | true, true => ""
  | true, false => goClean b
  | false, true => goClean a
  | false, false => String.mk (cleanChars (a.data ++ '/' :: b.data))

/-- Model of Go `filepath.ToSlash` on a host whose separator is already the
forward slash: the identity. -/
def toSlash (s : String) : String := s

/-- Model of Go `strings.TrimPrefix s "/"`: drop one leading slash. -/
def trimLeadSlash (s : String) : String :=
  match s.data with
  | '/' :: rest => String.mk rest
  | _ => s

/-- Backwards scan of Go `filepath.Ext`: walking from the end of the path,
return the suffix from the last dot of the last component, stopping at a
separator. `acc` holds the characters already passed, in original order. -/
def extScan : List Char → List Char → List Char
  | [], _ => []
  | c :: rest, acc =>
      if c == '/' then []
      else if c == '.' then c :: acc
      else extScan rest (c :: acc)

/-- Model of Go `filepath.Ext`: the suffix beginning at the final dot in
the final slash-separated element, empty if there is no dot. -/
def goExt (s : String) : String := String.mk (extScan s.data.reverse [])

/-- Model of Go `filepath.Base`: strip trailing slashes, then keep the part
after the last slash; "" maps to ".", all-slashes maps to "/". -/
def goBase (s : String) : String :=
  match s.data with
  | [] => String.mk ['.']
  | cs =>
      let cs' := (cs.reverse.dropWhile (fun c => c == '/')).reverse
      match cs' with
      | [] => String.mk ['/']
      | cs' => String.mk ((cs'.reverse.takeWhile (fun c => !(c == '/'))).reverse)

/-- Decimal digits of a natural number, least significant first, computed
with an explicit fuel bound so the definition is structural; helper for
`itoa`.  Fuel `n` always suffices since `n / 10 < n` for positive `n`. -/
def digitsRevFuel : Nat → Nat → List Char
  | 0, _ => []
  | fuel + 1, n =>
      if n = 0 then []
      else Char.ofNat (48 + n % 10) :: digitsRevFuel fuel (n / 10)

/-- Model of Go `strconv.Itoa` on the natural numbers that occur in the
program (image indexes and counts are never negative). -/
def itoa (n : Nat) : String :=
  if n = 0 then "0" else String.mk (digitsRevFuel n n).reverse

/-- Model of `normalizeImageName`: `fmt.Sprintf "page%0*d%s"` with the
width set to the decimal digit count of `totalFiles` and the extension
taken by `filepath.Ext` from the original name. -/
def normalizeImageName (originalName : String) (index : Nat) (totalFiles : Nat) : String :=
  let ext := goExt originalName
  let totalDigits := (itoa totalFiles).length
  let digits := itoa index
  "page" ++ String.mk (List.replicate (totalDigits - digits.length) '0') ++ digits ++ ext

/-- Bibliographic metadata decoded from the package document, one list per
recognized Dublin Core element name, in document order (`Metadata`). -/
structure Metadata where
  identifier : List String
  title : List String
  language : List String
  creator : List String
  publisher : List String
  date : List String
  rights : List String
  series : List String
  seriesID : List String
  number : List String
deriving DecidableEq, Repr

/-- Manifest item of the package document: an id and a relative href. -/
structure ManifestItem where
  id : String
  href : String
deriving DecidableEq, Repr

/-- Decoded package document (`Package`): metadata block, manifest items in
document order, and spine itemref ids in document order. -/
structure Package where
  metadata : Metadata
  items : List ManifestItem
  itemrefs : List String
deriving DecidableEq, Repr

/-- Model of `getFirst`: first element of a slice or the empty string. -/
def getFirst (items : List String) : String :=
  match items with
  | [] => ""
  | x :: _ => x

/-- Model of `containsJapanese`: scan the string's runes for membership in
the three fixed ranges Hiragana (3040-309F), Katakana (30A0-30FF) and
Kanji (4E00-9FBF). -/
def containsJapanese (s : String) : Bool :=
  s.data.any fun r =>
    (0x3040 ≤ r.toNat && r.toNat ≤ 0x309F) ||
    (0x30A0 ≤ r.toNat && r.toNat ≤ 0x30FF) ||
    (0x4E00 ≤ r.toNat && r.toNat ≤ 0x9FBF)

/-- Model of `hasMetadata`: some recognized bibliographic field has at
least one occurrence. -/
def hasMetadata (m : Metadata) : Bool :=
  !m.title.isEmpty || !m.creator.isEmpty || !m.publisher.isEmpty ||
  !m.series.isEmpty || !m.date.isEmpty || !m.language.isEmpty ||
  !m.identifier.isEmpty || !m.number.isEmpty

/-- All-decimal-digit parse of a character list, for the model of
`strconv.Atoi`; `none` when empty or any character is not a digit. -/
def parseDigits : List Char → Option Nat
  | [] => none
  | cs =>
      if cs.all (fun c => 48 ≤ c.toNat && c.toNat ≤ 57) then
        some (cs.foldl (fun acc c => 10 * acc + (c.toNat - 48)) 0)
      else none

/-- Model of Go `strconv.Atoi` (overflow aside, which cannot occur on the
4-character inputs the program feeds it): optional sign then digits. -/
def goAtoi (s : String) : Option Int :=
  match s.data with
  | '-' :: rest => (parseDigits rest).map fun n => -(n : Int)
  | '+' :: rest => (parseDigits rest).map fun n => (n : Int)
  | l => (parseDigits l).map fun n => (n : Int)

/-- Comic metadata record with the fields `createComicInfo` writes; the
remaining `ComicInfo` fields keep their zero values and are omitted from
the serialization. -/
structure ComicInfo where
  title : String
  series : String
  number : String
  publisher : String
  languageISO : String
  notes : String
  year : Int
  manga : String
  writer : String
  penciller : String
  blackAndWhite : String
  ageRating : String
deriving DecidableEq, Repr

/-- Model of `createComicInfo`: map the package metadata to the comic
record.  The year is parsed from the first 4 characters of the first date
occurrence (Go slices the first 4 bytes; dates are ASCII so this agrees);
the Manga flag follows `containsJapanese` on the mapped series; the
creator is copied to both writer and penciller; tone and age rating
default to the explicit "Unknown" sentinel. -/
def createComicInfo (m : Metadata) : ComicInfo :=
  let series := getFirst m.series
  let year : Int :=
    match m.date with
    | [] => 0
    | d :: _ =>
        if 4 ≤ d.length then
          match goAtoi (String.mk (d.data.take 4)) with
          | some y => y
          | none => 0
        else 0
  let manga :=
    if series ≠ "" then
      if containsJapanese series then "Yes" else "No"
    else "Unknown"
  let creator := getFirst m.creator
  { title := getFirst m.title
    series := series
    number := getFirst m.number
    publisher := getFirst m.publisher
    languageISO := getFirst m.language
    notes := "Generated from EPUB metadata"
    year := year
    manga := manga
    writer := if creator ≠ "" then creator else ""
    penciller := if creator ≠ "" then creator else ""
    blackAndWhite := "Unknown"
    ageRating := "Unknown" }

/-- Node kinds of the `golang.org/x/net/html` parse tree. -/
inductive NodeType where
  | document
  | element
  | text
  | comment
  | doctype
deriving DecidableEq, Repr

/-- Parse tree of `html.Parse`: type, data (the tag name for elements),
attributes as key-value pairs in document order, and children. -/
inductive HNode where
  | mk (ty : NodeType) (data : String) (attrs : List (String × String)) (children : List HNode)

/-- First attribute value with key `src`, mirroring the attribute loop in
`extractImagesFromXHTML` that breaks on the first `src` key. -/
def findSrcVal (attrs : List (String × String)) : Option String :=
  (attrs.find? (fun a => a.1 == "src")).map (fun a => a.2)

/-- Path resolution applied to every reference: `filepath.Join` against
`filepath.Dir` of the base document's path, `filepath.ToSlash`, then
`strings.TrimPrefix _ "/"`.  Used with the package-document path for spine
hrefs and with the page path for in-page image sources. -/
def resolveRel (baseHref : String) (v : String) : String :=
  trimLeadSlash (toSlash (goJoin (goDir baseHref) v))

mutual

/-- Recursive walk `f` of `extractImagesFromXHTML`: at an element node
named `img`, append the resolved first `src` attribute value to the
accumulator, then recurse into the children. -/
def walkNode (pageHref : String) (n : HNode) (srcs : List String) : List String :=
  match n with
  | .mk ty d attrs cs =>
      let srcs' :=
        if ty == NodeType.element && d == "img" then
          match findSrcVal attrs with
          | some v => srcs ++ [resolveRel pageHref v]
          | none => srcs
        else srcs
      walkNodes pageHref cs srcs'

/-- Walk of a child list, left to right, threading the accumulator. -/
def walkNodes (pageHref : String) (ns : List HNode) (srcs : List String) : List String :=
  match ns with
  | [] => srcs
  | n :: rest => walkNodes pageHref rest (walkNode pageHref n srcs)

end

/-- Model of `extractImagesFromXHTML`: on a parse error return the
accumulator unchanged, otherwise walk the document tree. -/
def extractImagesFromXHTML (parsed : Option HNode) (pageHref : String) (srcs : List String) : List String :=
  match parsed with
  | none => srcs
  | some doc => walkNode pageHref doc srcs

/-- Observable content of one zip entry of the input archive.  Opening and
reading are external I/O: `openErr` models `f.Open` failing, `readErr`
models a failure while reading or copying the opened stream, and `ok`
carries both external views of the entry's bytes — the `html.Parse` result
used when the entry is read as a page (`none` for a parse error) and the
raw bytes used when the entry is copied as an image. -/
inductive ZContent where
  | openErr
  | readErr
  | ok (parsed : Option HNode) (bytes : List Nat)

/-- Named entry of the input zip archive, in stored order. -/
structure ZEntry where
  name : String
  content : ZContent

/-- Page-reading loop body of `processFile`: scan the archive's entries in
stored order for the page's name; on an open or read error log and
`continue` scanning (a later duplicate entry may still match); on success
extract the images and `break`. -/
def pageLoop (entries : List ZEntry) (pageHref : String) (srcs : List String) : List String :=
  match entries with
  | [] => srcs
  | e :: rest =>
      if e.name == pageHref then
        match e.content with
        | .openErr => pageLoop rest pageHref srcs
        | .readErr => pageLoop rest pageHref srcs
        | .ok parsed _ => extractImagesFromXHTML parsed pageHref srcs
      else pageLoop rest pageHref srcs

/-- Final contents of the Go map `pageMap` built by `pageMap[item.ID] =
item.Href` over the manifest items in order: an association list with
unique keys where a later assignment replaces an earlier one. -/
def mapPairs (items : List ManifestItem) : List (String × String) :=
  items.foldl (fun ps it => ps.filter (fun p => !(p.1 == it.id)) ++ [(it.id, it.href)]) []

/-- Lookup in a Go-map representation: the value paired with the key, if
any.  On a unique-key list the scan order is irrelevant (proved below),
which is why the map's nondeterministic iteration order never shows. -/
def lookupPairs (ps : List (String × String)) (k : String) : Option String :=
  (ps.find? (fun p => p.1 == k)).map (fun p => p.2)

/-- Spine resolution loop of `processFile`, parameterized by the map
representation: for each itemref in document order, look up its href and,
when present, resolve it against the package document's directory; a
missing id contributes nothing. -/
def resolvePagesWith (rep : List (String × String)) (volOPFPath : String) (itemrefs : List String) : List String :=
  itemrefs.filterMap fun idref =>
    match lookupPairs rep idref with
    | some href => some (resolveRel volOPFPath href)
    | none => none

/-- Spine resolution of `processFile` with the canonical map contents. -/
def resolvePages (volOPFPath : String) (pkg : Package) : List String :=
  resolvePagesWith (mapPairs pkg.items) volOPFPath pkg.itemrefs

/-- Image-source collection loop of `processFile`: thread the `imgSrcs`
accumulator through the page loop for each resolved page in spine order. -/
def collectImgSrcs (entries : List ZEntry) (pages : List String) : List String :=
  pages.foldl (fun srcs p => pageLoop entries p srcs) []

/-- Payload of one output-archive entry: either a copied image (`none`
bytes when the copy failed after the entry was created) or the serialized
comic metadata record. -/
inductive OutData where
  | img (bytes : Option (List Nat))
  | info (ci : ComicInfo)
deriving DecidableEq, Repr

/-- Named entry of the output zip archive, in written order. -/
structure OutEntry where
  name : String
  data : OutData
deriving DecidableEq, Repr

/-- Model of `addImageToZip`: find the first archive entry whose stored
name equals the resolved image path; if none, log and add nothing; if it
cannot be opened, log and add nothing; otherwise create the output entry
under `filepath.Base (normalizeImageName ...)` and copy the bytes (a copy
failure leaves the created entry without its bytes). -/
def addImageToZip (entries : List ZEntry) (imgPath : String) (imageIndex : Nat) (total : Nat) : List OutEntry :=
  match entries.find? (fun e => e.name == imgPath) with
  | none => []
  | some e =>
      match e.content with
      | .openErr => []
      | .readErr => [⟨goBase (normalizeImageName imgPath imageIndex total), .img none⟩]
      | .ok _ bs => [⟨goBase (normalizeImageName imgPath imageIndex total), .img (some bs)⟩]

/-- Image-writing loop of `processFile`: `imageIndex` advances by one per
collected source regardless of whether anything was written, and the total
passed to the name normalizer is the pre-skip length of `imgSrcs`. -/
def writeImages (entries : List ZEntry) (srcs : List String) : List OutEntry :=
  srcs.enum.flatMap fun p => addImageToZip entries p.2 p.1 srcs.length

/-- Errors of the modeled pipeline stage.  Failures of the earlier stages
(container lookup and XML decoding) happen before the modeled boundary. -/
inductive ConvError where
  | emptySpine
deriving DecidableEq, Repr

/-- Model of the core of `processFile` from the decoded package document
on: resolve the spine, fail when no pages resolved, collect image sources
page by page, write the images, and append `ComicInfo.xml` when
`hasMetadata` holds.  Parameterized by the manifest-map representation. -/
def processFileWith (rep : List (String × String)) (volOPFPath : String) (pkg : Package) (entries : List ZEntry) : Except ConvError (List OutEntry) :=
  let pages := resolvePagesWith rep volOPFPath pkg.itemrefs
  if pages.isEmpty then .error .emptySpine
  else
    let srcs := collectImgSrcs entries pages
    let imgs := writeImages entries srcs
    if hasMetadata pkg.metadata then
      .ok (imgs ++ [⟨"ComicInfo.xml", .info (createComicInfo pkg.metadata)⟩])
    else .ok imgs

/-- Model of the core of `processFile` with the canonical map contents. -/
def processFileCore (volOPFPath : String) (pkg : Package) (entries : List ZEntry) : Except ConvError (List OutEntry) :=
  processFileWith (mapPairs pkg.items) volOPFPath pkg entries

mutual

/-- Pre-order, document-order list of the resolved image references of one
parse tree: one reference per `img` element that carries a `src`
attribute, resolved against the page's directory.  Accumulator-free
counterpart of `walkNode`, used to state what the walk collects. -/
def imgRefs (pageHref : String) : HNode → List String
  | .mk ty d attrs cs =>
      (if ty == NodeType.element && d == "img" then
        match findSrcVal attrs with
        | some v => [resolveRel pageHref v]
        | none => []
       else []) ++ imgRefsList pageHref cs

/-- Pre-order image references of a forest, left to right. -/
def imgRefsList (pageHref : String) : List HNode → List String
  | [] => []
  | n :: rest => imgRefs pageHref n ++ imgRefsList pageHref rest

end

/-- Whether `addImageToZip` finds and opens the image: the first archive
entry stored under the resolved path exists and its open succeeds. -/
def opensEntry (entries : List ZEntry) (s : String) : Bool :=
  match entries.find? (fun e => e.name == s) with
  | none => false
  | some e =>
      match e.content with
      | .openErr => false
      | _ => true

/-- Payload that `addImageToZip` copies for a found image: the entry's raw
bytes, or nothing when the copy fails after the entry was created. -/
def emitData (entries : List ZEntry) (s : String) : OutData :=
  match entries.find? (fun e => e.name == s) with
  | none => .img none
  | some e =>
      match e.content with
      | .ok _ bs => .img (some bs)
      | _ => .img none

/-- Marker for image entries of the output archive. -/
def isImg (e : OutEntry) : Bool :=
  match e.data with
  | .img _ => true
  | .info _ => false

/-- Marker for the metadata entry of the output archive. -/
def isInfo (e : OutEntry) : Bool :=
  match e.data with
  | .img _ => false
  | .info _ => true

/-- Metadata block with no recognized field present. -/
def metaNone : Metadata := ⟨[], [], [], [], [], [], [], [], [], []⟩

/-- Page document whose body carries exactly one image element. -/
def docOneImg (src : String) : HNode :=
  .mk .document "" [] [.mk .element "img" [("src", src)] []]

/-- Page document whose body carries two image elements. -/
def docTwoImgs (src1 src2 : String) : HNode :=
  .mk .document "" []
    [.mk .element "img" [("src", src1)] [], .mk .element "img" [("src", src2)] []]

/-- Package with a single spine page, used by concrete runs. -/
def pkgOnePage : Package := ⟨metaNone, [⟨"p1", "1.xhtml"⟩], ["p1"]⟩

/-- Archive for a run whose single page holds two present images. -/
def entC2 : List ZEntry :=
  [⟨"1.xhtml", .ok (some (docTwoImgs "a.jpg" "b.jpg")) []⟩,
   ⟨"a.jpg", .ok none [1]⟩, ⟨"b.jpg", .ok none [2]⟩]

/-- Package with two spine pages, used by concrete runs. -/
def pkgTwoPages : Package := ⟨metaNone, [⟨"p1", "1.xhtml"⟩, ⟨"p2", "2.xhtml"⟩], ["p1", "p2"]⟩

/-- Archive where the first page's image is absent from the archive. -/
def entC3 : List ZEntry :=
  [⟨"1.xhtml", .ok (some (docOneImg "a.jpg")) []⟩,
   ⟨"2.xhtml", .ok (some (docOneImg "b.png")) []⟩,
   ⟨"b.png", .ok none [9]⟩]

/-- Archive whose single page references two images, one absent. -/
def entC4 : List ZEntry :=
  [⟨"1.xhtml", .ok (some (docTwoImgs "a.png" "b.png")) []⟩,
   ⟨"b.png", .ok none [5]⟩]

/-- Package whose only spine id has no manifest entry. -/
def pkgDangling : Package := ⟨metaNone, [], ["ghost"]⟩

/-- Metadata block with only a title. -/
def metaTitle : Metadata := ⟨[], ["T"], [], [], [], [], [], [], [], []⟩

/-- Package with a title and a single page. -/
def pkgC6 : Package := ⟨metaTitle, [⟨"p1", "1.xhtml"⟩], ["p1"]⟩

/-- Package whose page lives in a subdirectory of the package document. -/
def pkgC7 : Package := ⟨metaNone, [⟨"p1", "pages/1.xhtml"⟩], ["p1"]⟩

/-- Metadata block whose series title is written in Japanese. -/
def metaC8 : Metadata := ⟨[], [], [], [], [], [], [], ["進撃の巨人"], [], []⟩

/-- Package with two manifest items, used for the map-order run. -/
def pkgC9 : Package := ⟨metaNone, [⟨"a", "1.xhtml"⟩, ⟨"b", "2.xhtml"⟩], ["a", "b"]⟩

/-- Archive holding only the second of two referenced images. -/
def entC10 : List ZEntry := [⟨"b.png", .ok none [5]⟩]

example : goClean "a//b/./c" = "a/b/c" := by decide
example : goClean "a/b/../c" = "a/c" := by decide
example : goClean "/../a" = "/a" := by decide
example : goClean "" = "." := by decide
example : goClean "a/.." = "." := by decide
example : goDir "OEBPS/vol.opf" = "OEBPS" := by decide
example : goDir "vol.opf" = "." := by decide
example : goJoin "." "x.xhtml" = "x.xhtml" := by decide
example : goJoin "OEBPS/pages" "../images/i1.jpg" = "OEBPS/images/i1.jpg" := by decide
example : goExt "OEBPS/images/i1.JPG" = ".JPG" := by decide
example : goExt "a.b/c" = "" := by decide
example : goBase "page0.jpg" = "page0.jpg" := by decide
example : trimLeadSlash "/a/b" = "a/b" := by decide
example : itoa 0 = "0" := by decide
example : itoa 10 = "10" := by decide
example : itoa 137 = "137" := by decide
example : normalizeImageName "OEBPS/images/i1.jpg" 3 12 = "page03.jpg" := by decide
example : normalizeImageName "a.JPG" 0 5 = "page0.JPG" := by decide
example : containsJapanese "進撃の巨人" = true := by decide
example : containsJapanese "Attack on Titan" = false := by decide
example : goAtoi "2019" = some 2019 := by decide
example : goAtoi "20-1" = none := by decide

mutual

theorem walkNode_eq (p : String) (n : HNode) (srcs : List String) :
    walkNode p n srcs = srcs ++ imgRefs p n := by
  match n with
  | .mk ty d attrs cs =>
    simp only [walkNode, imgRefs]
    rw [walkNodes_eq, ← List.append_assoc]
    congr 1
    cases hty : ty == NodeType.element && d == "img"
    · simp [hty]
    · cases hfs : findSrcVal attrs <;> simp [hty, hfs]

theorem walkNodes_eq (p : String) (ns : List HNode) (srcs : List String) :
    walkNodes p ns srcs = srcs ++ imgRefsList p ns := by
  match ns with
  | [] => rw [walkNodes, imgRefsList]; simp
  | n :: rest =>
      rw [walkNodes, imgRefsList, walkNodes_eq, walkNode_eq, List.append_assoc]

end

/-- Accumulator threading of `extractImagesFromXHTML`: the result is the
incoming accumulator followed by the page's own pre-order references. -/
theorem extractImagesFromXHTML_eq (parsed : Option HNode) (p : String) (srcs : List String) :
    extractImagesFromXHTML parsed p srcs =
      srcs ++ (match parsed with | none => [] | some doc => imgRefs p doc) := by
  cases parsed with
  | none => simp [extractImagesFromXHTML]
  | some doc => simp [extractImagesFromXHTML, walkNode_eq]

/-- Accumulator threading of the page loop: scanning contributes the
incoming accumulator followed by the page's own references. -/
theorem pageLoop_eq (entries : List ZEntry) (p : String) (srcs : List String) :
    pageLoop entries p srcs = srcs ++ pageLoop entries p [] := by
  induction entries with
  | nil => simp [pageLoop]
  | cons e rest ih =>
      simp only [pageLoop]
      cases he : e.name == p
      · simp only [Bool.false_eq_true, if_false]; exact ih
      · simp only [if_true]
        cases hc : e.content with
        | openErr => simpa using ih
        | readErr => simpa using ih
        | ok parsed bytes => simp [extractImagesFromXHTML_eq]

/-- Image collection visits the resolved pages in spine order and
concatenates each page's references in document order. -/
theorem collectImgSrcs_eq (entries : List ZEntry) (pages : List String) :
    collectImgSrcs entries pages = pages.flatMap (fun p => pageLoop entries p []) := by
  suffices h : ∀ (ps : List String) (srcs : List String),
      ps.foldl (fun srcs p => pageLoop entries p srcs) srcs
        = srcs ++ ps.flatMap (fun p => pageLoop entries p []) by
    simpa [collectImgSrcs] using h pages []
  intro ps
  induction ps with
  | nil => intro srcs; simp
  | cons p rest ih =>
      intro srcs
      simp only [List.foldl_cons, List.flatMap_cons, ih, pageLoop_eq entries p srcs]
      simp

/-- Case analysis of `addImageToZip`: it emits exactly one entry when the
image is found and opens, and nothing otherwise. -/
theorem addImageToZip_eq (entries : List ZEntry) (s : String) (i total : Nat) :
    addImageToZip entries s i total =
      if opensEntry entries s then
        [⟨goBase (normalizeImageName s i total), emitData entries s⟩]
      else [] := by
  unfold addImageToZip opensEntry emitData
  cases hf : entries.find? (fun e => e.name == s) with
  | none => simp
  | some e => cases hc : e.content <;> simp [hc]

/-- Generic shape of a flat map whose body yields at most a singleton. -/
theorem flatMap_singleton_filter {α β : Type} (F : α → List β) (P : α → Bool) (G : α → β)
    (h : ∀ a, F a = if P a then [G a] else []) (l : List α) :
    l.flatMap F = (l.filter P).map G := by
  induction l with
  | nil => simp
  | cons a t ih =>
      rw [List.flatMap_cons, h a, List.filter_cons]
      cases hp : P a <;> simp [ih]

/-- Structure of the image-writing loop: the written entries are, in
order, the collected sources that are found and open, each named by its
position in the collected sequence and by the pre-skip total. -/
theorem writeImages_eq (entries : List ZEntry) (srcs : List String) :
    writeImages entries srcs =
      ((srcs.enum.filter fun p => opensEntry entries p.2).map
        fun p => ⟨goBase (normalizeImageName p.2 p.1 srcs.length), emitData entries p.2⟩) := by
  unfold writeImages
  exact flatMap_singleton_filter _ _ _
    (fun p => addImageToZip_eq entries p.2 p.1 srcs.length) srcs.enum

/-- One assignment step of the `pageMap` build keeps the keys unique. -/
theorem mapStep_keys_nodup (ps : List (String × String)) (it : ManifestItem)
    (h : (ps.map Prod.fst).Nodup) :
    (((ps.filter (fun p => !(p.1 == it.id)) ++ [(it.id, it.href)]).map Prod.fst)).Nodup := by
  rw [List.map_append, List.nodup_append]
  refine ⟨(h.sublist ((List.filter_sublist ps).map Prod.fst)), by simp, ?_⟩
  intro k hk hk'
  simp only [List.map_cons, List.map_nil, List.mem_singleton] at hk'
  subst hk'
  rcases List.mem_map.mp hk with ⟨p, hp, hpk⟩
  have := (List.mem_filter.mp hp).2
  simp only [Bool.not_eq_eq_eq_not, Bool.not_true, beq_eq_false_iff_ne, ne_eq] at this
  exact this (by simpa using hpk)

/-- Keys of the final `pageMap` contents are unique: a later manifest item
with the same id replaces the earlier one. -/
theorem mapPairs_keys_nodup (items : List ManifestItem) :
    ((mapPairs items).map Prod.fst).Nodup := by
  suffices h : ∀ (its : List ManifestItem) (ps : List (String × String)),
      (ps.map Prod.fst).Nodup →
      ((its.foldl (fun ps it => ps.filter (fun p => !(p.1 == it.id)) ++ [(it.id, it.href)]) ps).map
        Prod.fst).Nodup by
    exact h items [] (by simp)
  intro its
  induction its with
  | nil => intro ps h; simpa using h
  | cons it rest ih =>
      intro ps h
      exact ih _ (mapStep_keys_nodup ps it h)

/-- On a unique-key association list, a present pair determines the
`find?` result. -/
theorem find_of_mem_nodup (ps : List (String × String)) (k v : String)
    (hnd : (ps.map Prod.fst).Nodup) (hm : (k, v) ∈ ps) :
    ps.find? (fun p => p.1 == k) = some (k, v) := by
  induction ps with
  | nil => cases hm
  | cons q rest ih =>
      rw [List.map_cons, List.nodup_cons] at hnd
      rcases List.mem_cons.mp hm with hq | hrest
      · rw [← hq]
        exact List.find?_cons_of_pos _ (by simp)
      · have hne : ¬ (q.1 == k) = true := by
          intro hqe
          exact hnd.1 (by
            rw [eq_of_beq hqe]
            exact List.mem_map.mpr ⟨(k, v), hrest, rfl⟩)
        rw [List.find?_cons_of_neg _ (by simpa using hne)]
        exact ih hnd.2 hrest

/-- Go-map lookup is invariant under the representation's internal order:
two permutations of the same unique-key contents agree on every key.
This is why the map's nondeterministic iteration order cannot influence
the program — `pageMap` is only ever read by key lookup. -/
theorem lookupPairs_perm (ps qs : List (String × String)) (h : ps.Perm qs)
    (hnd : (ps.map Prod.fst).Nodup) (k : String) :
    lookupPairs ps k = lookupPairs qs k := by
  by_cases hk : ∃ v, (k, v) ∈ ps
  · rcases hk with ⟨v, hv⟩
    unfold lookupPairs
    rw [find_of_mem_nodup ps k v hnd hv,
        find_of_mem_nodup qs k v ((h.map Prod.fst).nodup_iff.mp hnd) (h.mem_iff.mp hv)]
  · have hnone : ∀ (l : List (String × String)), (∀ v, (k, v) ∉ l) →
        lookupPairs l k = none := by
      intro l hl
      unfold lookupPairs
      have hall : ∀ x ∈ l, ¬((fun p => p.1 == k) x = true) := by
        rintro ⟨a, b⟩ hp hb
        simp only [beq_iff_eq] at hb
        subst hb
        exact hl b hp
      rw [List.find?_eq_none.mpr hall]
      rfl
    rw [hnone ps (fun v hv => hk ⟨v, hv⟩),
        hnone qs (fun v hv => hk ⟨v, h.mem_iff.mpr hv⟩)]

/-- Splitting on a separator yields groups free of the separator. -/
theorem splitCh_no_sep (sep : Char) : ∀ (cs : List Char), ∀ g ∈ splitCh sep cs, sep ∉ g
  | [], g, hg => by
      simp only [splitCh, List.mem_singleton] at hg
      subst hg; simp
  | c :: cs, g, hg => by
      rw [splitCh] at hg
      rcases hs : splitCh sep cs with _ | ⟨g0, gs⟩
      · rw [hs] at hg
        simp only [List.mem_singleton] at hg
        subst hg; simp
      · rw [hs] at hg
        have hg' : g ∈ (if (c == sep) = true then [] :: g0 :: gs else (c :: g0) :: gs) := hg
        by_cases hc : (c == sep) = true
        · rw [if_pos hc] at hg'
          rcases List.mem_cons.mp hg' with h | h
          · subst h; simp
          · exact splitCh_no_sep sep cs g (hs ▸ h)
        · rw [if_neg hc] at hg'
          rcases List.mem_cons.mp hg' with h | h
          · subst h
            intro hmem
            rcases List.mem_cons.mp hmem with h' | h'
            · exact hc (by rw [h'] ; simp)
            · exact splitCh_no_sep sep cs g0 (hs ▸ List.mem_cons_self g0 gs) h'
          · exact splitCh_no_sep sep cs g (hs ▸ List.mem_cons_of_mem g0 h)

/-- Component well-formedness preserved by `cleanStep`: every element on
the stack stays nonempty and slash-free. -/
theorem cleanStep_inv (rooted : Bool) (stack : List (List Char)) (c : List Char)
    (hs : ∀ e ∈ stack, e ≠ [] ∧ '/' ∉ e) (hc : c ≠ [] ∧ '/' ∉ c) :
    ∀ e ∈ cleanStep rooted stack c, e ≠ [] ∧ '/' ∉ e := by
  intro e he
  unfold cleanStep at he
  by_cases hdd : (c == ['.', '.']) = true
  · rw [if_pos hdd] at he
    rcases stack with _ | ⟨top, rest⟩
    · have he' : e ∈ (if rooted = true then ([] : List (List Char)) else [c]) := he
      cases rooted
      · rw [if_neg (by simp)] at he'
        simp only [List.mem_singleton] at he'
        subst he'; exact hc
      · rw [if_pos rfl] at he'
        simp at he'
    · have he' : e ∈ (if (top == ['.', '.']) = true then c :: top :: rest else rest) := he
      by_cases htop : (top == ['.', '.']) = true
      · rw [if_pos htop] at he'
        rcases List.mem_cons.mp he' with h | h
        · subst h; exact hc
        · exact hs e h
      · rw [if_neg htop] at he'
        exact hs e (List.mem_cons_of_mem top he')
  · rw [if_neg hdd] at he
    rcases List.mem_cons.mp he with h | h
    · subst h; exact hc
    · exact hs e h

/-- Folding `cleanStep` over well-formed components keeps the invariant. -/
theorem cleanFold_inv (rooted : Bool) :
    ∀ (comps : List (List Char)) (stack : List (List Char)),
      (∀ c ∈ comps, c ≠ [] ∧ '/' ∉ c) → (∀ e ∈ stack, e ≠ [] ∧ '/' ∉ e) →
      ∀ e ∈ comps.foldl (cleanStep rooted) stack, e ≠ [] ∧ '/' ∉ e
  | [], stack, _, hs, e, he => hs e he
  | c :: rest, stack, hcomps, hs, e, he => by
      rw [List.foldl_cons] at he
      exact cleanFold_inv rooted rest (cleanStep rooted stack c)
        (fun c' hc' => hcomps c' (List.mem_cons_of_mem c hc'))
        (cleanStep_inv rooted stack c hs (hcomps c (List.mem_cons_self c rest)))
        e he

/-- Joining a nonempty list of well-formed components starts with a
character that is not a slash. -/
theorem joinComps_head :
    ∀ (s : List (List Char)), s ≠ [] → (∀ e ∈ s, e ≠ [] ∧ '/' ∉ e) →
      ∃ a t, joinComps s = a :: t ∧ a ≠ '/'
  | [], h, _ => absurd rfl h
  | [c], _, hs => by
      obtain ⟨hne, hns⟩ := hs c (List.mem_singleton.mpr rfl)
      rcases c with _ | ⟨a, t⟩
      · exact absurd rfl hne
      · exact ⟨a, t, by rw [joinComps], fun ha => hns (ha ▸ List.mem_cons_self a t)⟩
  | c :: c2 :: rest, _, hs => by
      obtain ⟨hne, hns⟩ := hs c (List.mem_cons_self c (c2 :: rest))
      rcases c with _ | ⟨a, t⟩
      · exact absurd rfl hne
      · exact ⟨a, t ++ '/' :: joinComps (c2 :: rest), rfl,
          fun ha => hns (ha ▸ List.mem_cons_self a t)⟩

/-- Shape of `cleanAssemble` under the stack invariant: the result is
nonempty and never begins with two slashes. -/
theorem cleanAssemble_shape (rooted : Bool) (stack : List (List Char))
    (hs : ∀ e ∈ stack, e ≠ [] ∧ '/' ∉ e) :
    cleanAssemble rooted stack ≠ [] ∧
      ∀ rest, cleanAssemble rooted stack ≠ '/' :: '/' :: rest := by
  rcases stack with _ | ⟨top, srest⟩
  · cases rooted <;> simp [cleanAssemble]
  · have hnempty : (top :: srest).reverse ≠ [] := by simp
    have hrev : ∀ e ∈ (top :: srest).reverse, e ≠ [] ∧ '/' ∉ e := by
      intro e he; exact hs e (List.mem_reverse.mp he)
    obtain ⟨a, t, hj, ha⟩ := joinComps_head ((top :: srest).reverse) hnempty hrev
    cases rooted
    · constructor
      · rw [show cleanAssemble false (top :: srest) = joinComps (top :: srest).reverse from rfl, hj]
        simp
      · intro rest hcontra
        rw [show cleanAssemble false (top :: srest) = joinComps (top :: srest).reverse from rfl,
          hj] at hcontra
        exact ha (by injection hcontra)
    · constructor
      · rw [show cleanAssemble true (top :: srest) = '/' :: joinComps (top :: srest).reverse from rfl]
        simp
      · intro rest hcontra
        rw [show cleanAssemble true (top :: srest) = '/' :: joinComps (top :: srest).reverse from rfl,
          hj] at hcontra
        injection hcontra with _ h2
        exact ha (by injection h2)

/-- Shape of `path.Clean`: its output is nonempty and never starts with a
double slash. -/
theorem cleanChars_shape (cs : List Char) :
    cleanChars cs ≠ [] ∧ ∀ rest, cleanChars cs ≠ '/' :: '/' :: rest := by
  unfold cleanChars
  apply cleanAssemble_shape
  apply cleanFold_inv
  · intro c hc
    have hfilter := List.mem_filter.mp hc
    have hsep := splitCh_no_sep '/' cs c hfilter.1
    have := hfilter.2
    simp only [Bool.and_eq_true, Bool.not_eq_eq_eq_not, Bool.not_true, beq_eq_false_iff_ne,
      ne_eq] at this
    exact ⟨this.1, hsep⟩
  · simp

/-- Join output never starts with a double slash when the first element is
nonempty (Go `filepath.Join` cleans its result). -/
theorem goJoin_shape (a b : String) (ha : a ≠ "") :
    (goJoin a b).data ≠ [] ∧ ∀ rest, (goJoin a b).data ≠ '/' :: '/' :: rest := by
  unfold goJoin
  have ha' : (a == "") = false := by simpa using ha
  rw [ha']
  cases b == "" <;> simp only <;> exact cleanChars_shape _

/-- Resolved references never carry a leading slash: the cleaned join has
at most one, and the trim removes it. -/
theorem resolveRel_no_lead_slash (base v : String) :
    (resolveRel base v).data.head? ≠ some '/' := by
  have hdir : goDir base ≠ "" := by
    intro h
    exact (cleanChars_shape (upToLastSlash base.data)).1 (congrArg String.data h)
  have hshape := goJoin_shape (goDir base) v hdir
  unfold resolveRel toSlash trimLeadSlash
  split
  · next rest heq =>
      intro hc
      rcases hr : rest with _ | ⟨r0, rtail⟩
      · rw [hr] at hc; simp at hc
      · rw [hr] at hc
        simp only [List.head?, Option.some.injEq] at hc
        exact hshape.2 rtail (by rw [heq, hr, hc])
  · next hno =>
      intro hc
      rcases hd : (goJoin (goDir base) v).data with _ | ⟨c0, ctail⟩
      · rw [hd] at hc; simp at hc
      · rw [hd] at hc
        simp only [List.head?, Option.some.injEq] at hc
        exact hno ctail (by rw [hd, hc])

/-- Spine resolution only reads the map through key lookups, so it is
invariant under the representation's order. -/
theorem resolvePagesWith_perm (rep : List (String × String)) (v : String)
    (itemrefs : List String) (items : List ManifestItem)
    (h : rep.Perm (mapPairs items)) :
    resolvePagesWith rep v itemrefs = resolvePagesWith (mapPairs items) v itemrefs := by
  unfold resolvePagesWith
  apply List.filterMap_congr
  intro r _
  rw [lookupPairs_perm rep (mapPairs items) h
    (((h.symm.map Prod.fst).nodup_iff).mp (mapPairs_keys_nodup items)) r]

/-- Every resolved page path comes from a spine itemref whose id resolves
in the manifest map, joined against the package document's directory. -/
theorem resolvePages_mem (v : String) (pkg : Package) (s : String)
    (hs : s ∈ resolvePages v pkg) :
    ∃ r ∈ pkg.itemrefs, ∃ href,
      lookupPairs (mapPairs pkg.items) r = some href ∧ s = resolveRel v href := by
  unfold resolvePages resolvePagesWith at hs
  rcases List.mem_filterMap.mp hs with ⟨r, hr, hfr⟩
  refine ⟨r, hr, ?_⟩
  cases hl : lookupPairs (mapPairs pkg.items) r with
  | none => rw [hl] at hfr; cases hfr
  | some href =>
      rw [hl] at hfr
      exact ⟨href, rfl, by injection hfr with h; exact h.symm⟩

mutual

theorem imgRefs_mem (p : String) (n : HNode) (s : String) (h : s ∈ imgRefs p n) :
    ∃ val, s = resolveRel p val := by
  match n with
  | .mk ty d attrs cs =>
      rw [imgRefs] at h
      rcases List.mem_append.mp h with h1 | h2
      · by_cases hty : (ty == NodeType.element && d == "img") = true
        · rw [if_pos hty] at h1
          cases hfs : findSrcVal attrs with
          | none => rw [hfs] at h1; cases h1
          | some val =>
              rw [hfs] at h1
              simp only [List.mem_singleton] at h1
              exact ⟨val, h1⟩
        · rw [if_neg hty] at h1; cases h1
      · exact imgRefsList_mem p cs s h2

theorem imgRefsList_mem (p : String) (ns : List HNode) (s : String) (h : s ∈ imgRefsList p ns) :
    ∃ val, s = resolveRel p val := by
  match ns with
  | [] => rw [imgRefsList] at h; cases h
  | n :: rest =>
      rw [imgRefsList] at h
      rcases List.mem_append.mp h with h1 | h2
      · exact imgRefs_mem p n s h1
      · exact imgRefsList_mem p rest s h2

end

/-- Character codes emitted for decimal digits. -/
theorem char_ofNat_digit (r : Nat) (hr : r < 10) : (Char.ofNat (48 + r)).toNat = 48 + r := by
  interval_cases r <;> decide

/-- All characters produced by the digit scan are decimal digits. -/
theorem digitsRevFuel_digits :
    ∀ (fuel n : Nat), ∀ c ∈ digitsRevFuel fuel n, 48 ≤ c.toNat ∧ c.toNat ≤ 57
  | 0, n, c, hc => by simp [digitsRevFuel] at hc
  | fuel + 1, n, c, hc => by
      rw [digitsRevFuel] at hc
      by_cases hn : n = 0
      · rw [if_pos hn] at hc; cases hc
      · rw [if_neg hn] at hc
        rcases List.mem_cons.mp hc with h | h
        · subst h
          have hlt : n % 10 < 10 := Nat.mod_lt _ (by omega)
          rw [char_ofNat_digit _ hlt]
          omega
        · exact digitsRevFuel_digits fuel (n / 10) c h

/-- All characters of `strconv.Itoa` output are decimal digits. -/
theorem itoa_digits (n : Nat) : ∀ c ∈ (itoa n).data, 48 ≤ c.toNat ∧ c.toNat ≤ 57 := by
  intro c hc
  unfold itoa at hc
  by_cases hn : n = 0
  · rw [if_pos hn] at hc
    simp only [String.data] at hc
    have : c = '0' := by simpa using hc
    subst this; decide
  · rw [if_neg hn] at hc
    simp only [String.data] at hc
    exact digitsRevFuel_digits n n c (List.mem_reverse.mp hc)

/-- The extension scan never emits a slash. -/
theorem extScan_no_slash :
    ∀ (l acc : List Char), '/' ∉ acc → '/' ∉ extScan l acc
  | [], acc, hacc => by simp [extScan]
  | c :: rest, acc, hacc => by
      rw [extScan]
      by_cases hcs : (c == '/') = true
      · rw [if_pos hcs]; simp
      · rw [if_neg hcs]
        by_cases hcd : (c == '.') = true
        · rw [if_pos hcd]
          intro hmem
          rcases List.mem_cons.mp hmem with h | h
          · rw [eq_of_beq hcd] at h; cases h
          · exact hacc h
        · rw [if_neg hcd]
          refine extScan_no_slash rest (c :: acc) ?_
          intro hmem
          rcases List.mem_cons.mp hmem with h | h
          · exact hcs (by rw [← h]; simp)
          · exact hacc h

/-- The computed file extension contains no slash. -/
theorem goExt_no_slash (s : String) : '/' ∉ (goExt s).data := by
  unfold goExt
  exact extScan_no_slash s.data.reverse [] (by simp)

/-- Dropping while a predicate fails everywhere drops nothing. -/
theorem dropWhile_all_neg {α : Type} (p : α → Bool) :
    ∀ (l : List α), (∀ c ∈ l, p c = false) → l.dropWhile p = l
  | [], _ => rfl
  | a :: l, h => by
      rw [List.dropWhile_cons, h a (List.mem_cons_self a l)]
      simp

/-- Taking while a predicate holds everywhere takes everything. -/
theorem takeWhile_all_pos {α : Type} (p : α → Bool) :
    ∀ (l : List α), (∀ c ∈ l, p c = true) → l.takeWhile p = l
  | [], _ => rfl
  | a :: l, h => by
      rw [List.takeWhile_cons, h a (List.mem_cons_self a l)]
      simp only [if_true]
      rw [takeWhile_all_pos p l (fun c hc => h c (List.mem_cons_of_mem a hc))]

/-- Base of a nonempty slash-free name is the name itself. -/
theorem goBase_of_no_slash (s : String) (hne : s.data ≠ []) (hns : '/' ∉ s.data) :
    goBase s = s := by
  rcases s with ⟨d⟩
  rcases d with _ | ⟨c, t⟩
  · exact absurd rfl hne
  · have hall : ∀ x ∈ (c :: t).reverse, (x == '/') = false := by
      intro x hx
      have : x ≠ '/' := fun hx' => hns (hx' ▸ List.mem_reverse.mp hx)
      simpa using this
    have hpos : ∀ x ∈ (c :: t).reverse, (!(x == '/')) = true := by
      intro x hx; rw [hall x hx]; rfl
    have hstep : goBase ⟨c :: t⟩ =
        match ((c :: t).reverse.dropWhile (fun c => c == '/')).reverse with
        | [] => String.mk ['/']
        | cs' => String.mk ((cs'.reverse.takeWhile (fun c => !(c == '/'))).reverse) := rfl
    rw [hstep, dropWhile_all_neg _ _ hall, List.reverse_reverse]
    show String.mk (((c :: t).reverse.takeWhile (fun c => !(c == '/'))).reverse) = _
    rw [takeWhile_all_pos _ _ hpos, List.reverse_reverse]

/-- Normalized image names are nonempty and slash-free: they start with
the literal `page`, continue with digits, and end with a slash-free
extension, so `filepath.Base` leaves them unchanged. -/
theorem goBase_normalizeImageName (s : String) (i t : Nat) :
    goBase (normalizeImageName s i t) = normalizeImageName s i t := by
  have hdata : (normalizeImageName s i t).data =
      "page".data ++ (List.replicate ((itoa t).length - (itoa i).length) '0' ++
        ((itoa i).data ++ (goExt s).data)) := by
    unfold normalizeImageName
    simp [String.data_append]
  apply goBase_of_no_slash
  · rw [hdata]; simp
  · rw [hdata]
    intro hmem
    rcases List.mem_append.mp hmem with h | h
    · simp at h
    · rcases List.mem_append.mp h with h | h
      · have := List.eq_of_mem_replicate h
        cases this
      · rcases List.mem_append.mp h with h | h
        · have := itoa_digits i '/' h
          revert this; decide
        · exact goExt_no_slash s h

/-- Copy payloads are always image payloads. -/
theorem emitData_img (entries : List ZEntry) (s : String) :
    ∃ ob, emitData entries s = OutData.img ob := by
  cases hf : entries.find? (fun e => e.name == s) with
  | none => exact ⟨none, by simp [emitData, hf]⟩
  | some e' =>
      cases hc : e'.content with
      | openErr => exact ⟨none, by simp [emitData, hf, hc]⟩
      | readErr => exact ⟨none, by simp [emitData, hf, hc]⟩
      | ok parsed bs => exact ⟨some bs, by simp [emitData, hf, hc]⟩

/-- Every entry emitted by the image-writing loop is an image entry. -/
theorem writeImages_all_img (entries : List ZEntry) (srcs : List String) :
    ∀ e ∈ writeImages entries srcs, isImg e = true := by
  intro e he
  rw [writeImages_eq] at he
  rcases List.mem_map.mp he with ⟨p, _, hpe⟩
  rw [← hpe]
  obtain ⟨ob, hob⟩ := emitData_img entries p.2
  show isImg ⟨goBase (normalizeImageName p.2 p.1 srcs.length), emitData entries p.2⟩ = true
  rw [hob]
  rfl

/-- Successful runs produce exactly the written images, followed by the
metadata entry when `hasMetadata` holds. -/
theorem processFileWith_ok (rep : List (String × String)) (v : String) (pkg : Package)
    (entries : List ZEntry) (out : List OutEntry)
    (h : processFileWith rep v pkg entries = .ok out) :
    out = writeImages entries (collectImgSrcs entries (resolvePagesWith rep v pkg.itemrefs)) ++
      (if hasMetadata pkg.metadata then
        [⟨"ComicInfo.xml", .info (createComicInfo pkg.metadata)⟩]
       else []) := by
  unfold processFileWith at h
  by_cases hp : ((resolvePagesWith rep v pkg.itemrefs).isEmpty) = true
  · rw [if_pos hp] at h; cases h
  · rw [if_neg hp] at h
    by_cases hm : (hasMetadata pkg.metadata) = true
    · rw [if_pos hm] at h
      rw [if_pos hm]
      injection h with h
      exact h.symm
    · rw [if_neg hm] at h
      rw [if_neg hm]
      injection h with h
      rw [← h, List.append_nil]

/-- The pipeline fails exactly when the resolved page sequence is empty,
and then with the empty-spine error. -/
theorem processFileWith_error_iff (rep : List (String × String)) (v : String) (pkg : Package)
    (entries : List ZEntry) :
    processFileWith rep v pkg entries = .error .emptySpine ↔
      resolvePagesWith rep v pkg.itemrefs = [] := by
  unfold processFileWith
  by_cases hp : ((resolvePagesWith rep v pkg.itemrefs).isEmpty) = true
  · rw [if_pos hp]
    simp only [List.isEmpty_iff] at hp
    exact ⟨fun _ => hp, fun _ => rfl⟩
  · rw [if_neg hp]
    simp only [List.isEmpty_iff] at hp
    constructor
    · intro hcontra
      by_cases hm : (hasMetadata pkg.metadata) = true
      · rw [if_pos hm] at hcontra; cases hcontra
      · rw [if_neg hm] at hcontra; cases hcontra
    · intro hcontra; exact absurd hcontra hp

/-- Filtering an enumeration by a predicate on the items keeps as many
pairs as the predicate keeps items. -/
theorem enumFrom_filter_length (P : String → Bool) :
    ∀ (l : List String) (k : Nat),
      ((List.enumFrom k l).filter (fun p => P p.2)).length = (l.filter P).length
  | [], _ => by simp
  | a :: l, k => by
      rw [List.enumFrom_cons, List.filter_cons, List.filter_cons]
      cases hp : P a
      · simpa using enumFrom_filter_length P l (k + 1)
      · simpa using enumFrom_filter_length P l (k + 1)

/-- Enumeration membership from an index lookup. -/
theorem mem_enumFrom_of_get? :
    ∀ (l : List String) (k j : Nat) (s : String), l.get? j = some s →
      (k + j, s) ∈ List.enumFrom k l
  | [], _, j, s, h => by simp at h
  | a :: l, k, 0, s, h => by
      injection h with h
      subst h
      simp [List.enumFrom]
  | a :: l, k, j + 1, s, h => by
      have hrec := mem_enumFrom_of_get? l (k + 1) j s (by simpa using h)
      rw [List.enumFrom_cons]
      apply List.mem_cons_of_mem
      have : k + (j + 1) = k + 1 + j := by omega
      rw [this]
      exact hrec

/-- The number of written image entries equals the number of collected
sources that are found and open in the input archive. -/
theorem writeImages_length (entries : List ZEntry) (srcs : List String) :
    (writeImages entries srcs).length = (srcs.filter (opensEntry entries)).length := by
  rw [writeImages_eq, List.length_map]
  exact enumFrom_filter_length (opensEntry entries) srcs 0

/-- Dropping the spine itemrefs that do not resolve in the manifest leaves
the resolved page sequence unchanged: dangling ids contribute nothing. -/
theorem resolvePagesWith_filter_dangling (rep : List (String × String)) (v : String) :
    ∀ (itemrefs : List String),
      resolvePagesWith rep v (itemrefs.filter (fun r => (lookupPairs rep r).isSome)) =
        resolvePagesWith rep v itemrefs
  | [] => rfl
  | r :: rest => by
      unfold resolvePagesWith
      rw [List.filter_cons]
      cases hl : lookupPairs rep r with
      | none =>
          rw [List.filterMap_cons, hl]
          simp only [Option.isSome_none, Bool.false_eq_true, if_false]
          exact resolvePagesWith_filter_dangling rep v rest
      | some href =>
          simp only [Option.isSome_some, if_true]
          rw [List.filterMap_cons, List.filterMap_cons, hl]
          simp only
          rw [show List.filterMap
            (fun idref =>
              match lookupPairs rep idref with
              | some href => some (resolveRel v href)
              | none => none) (List.filter (fun r => (lookupPairs rep r).isSome) rest)
            = resolvePagesWith rep v (rest.filter (fun r => (lookupPairs rep r).isSome)) from rfl]
          rw [resolvePagesWith_filter_dangling rep v rest]
          rfl

/-- Image and metadata markers never hold together. -/
theorem not_isImg_and_isInfo (e : OutEntry) : ¬(isImg e = true ∧ isInfo e = true) := by
  rcases e with ⟨n, d⟩
  cases d <;> simp [isImg, isInfo]

/-- Boolean metadata trigger spelled as a disjunction over the eight
recognized fields. -/
theorem hasMetadata_iff (m : Metadata) :
    hasMetadata m = true ↔
      (m.title ≠ [] ∨ m.creator ≠ [] ∨ m.publisher ≠ [] ∨ m.series ≠ [] ∨
       m.date ≠ [] ∨ m.language ≠ [] ∨ m.identifier ≠ [] ∨ m.number ≠ []) := by
  simp only [hasMetadata, Bool.or_eq_true, Bool.not_eq_true', List.isEmpty_eq_false, ne_eq]
  tauto

/-- Boolean script scan spelled as an existential over the three ranges. -/
theorem containsJapanese_iff (s : String) :
    containsJapanese s = true ↔ ∃ c ∈ s.data,
      (0x3040 ≤ c.toNat ∧ c.toNat ≤ 0x309F) ∨ (0x30A0 ≤ c.toNat ∧ c.toNat ≤ 0x30FF) ∨
      (0x4E00 ≤ c.toNat ∧ c.toNat ≤ 0x9FBF) := by
  unfold containsJapanese
  rw [List.any_eq_true]
  constructor
  · rintro ⟨c, hc, hpred⟩
    refine ⟨c, hc, ?_⟩
    simp only [Bool.or_eq_true, Bool.and_eq_true, decide_eq_true_eq] at hpred
    tauto
  · rintro ⟨c, hc, hpred⟩
    refine ⟨c, hc, ?_⟩
    simp only [Bool.or_eq_true, Bool.and_eq_true, decide_eq_true_eq]
    tauto

/-- C1 counterexample: a page document with two image elements contributes
two Image References (in document order), not exactly one — the walk does
not stop after the first match, so the claim fails on this input. -/
theorem claim1_counterexample :
    extractImagesFromXHTML (some (docTwoImgs "a.jpg" "b.jpg")) "pg/x.xhtml" []
        = ["pg/a.jpg", "pg/b.jpg"] ∧
      (extractImagesFromXHTML (some (docTwoImgs "a.jpg" "b.jpg")) "pg/x.xhtml" []).length ≠ 1 := by
  constructor
  · decide
  · decide

/-- C1 amended: every image element encountered in the pre-order
document-order walk that carries a `src` attribute (its first `src`
attribute; the value may even be empty) contributes exactly one Image
Reference resolved against the page's directory; a page may therefore
contribute several references, all in document order. -/
theorem claim1_amended_extract_all_images (doc : HNode) (pageHref : String) (srcs : List String) :
    extractImagesFromXHTML (some doc) pageHref srcs = srcs ++ imgRefs pageHref doc := by
  rw [extractImagesFromXHTML_eq]

/-- C2 counterexample: a run with exactly one qualifying spine entry
(resolvable, readable, with at least one image) emits two page-image
entries, because the page holds two images — the emitted count tracks
image references, not qualifying pages. -/
theorem claim2_counterexample :
    processFileCore "vol.opf" pkgOnePage entC2 =
        .ok [⟨"page0.jpg", .img (some [1])⟩, ⟨"page1.jpg", .img (some [2])⟩] ∧
      (resolvePages "vol.opf" pkgOnePage).length = 1 := by
  constructor
  · rfl
  · decide

/-- C2 amended: for every successful run the number of emitted page-image
entries equals the number of collected image references (one per image
element with a `src` attribute, over the readable pages in spine order)
whose resolved path names an archive entry that opens; and the run fails
with the empty-spine error exactly when no spine entry resolves. -/
theorem claim2_amended_image_count (v : String) (pkg : Package) (entries : List ZEntry) :
    (∀ out, processFileCore v pkg entries = .ok out →
      (out.filter isImg).length =
        ((collectImgSrcs entries (resolvePages v pkg)).filter (opensEntry entries)).length)
    ∧ (processFileCore v pkg entries = .error .emptySpine ↔ resolvePages v pkg = []) := by
  constructor
  · intro out hout
    have hchar := processFileWith_ok _ _ _ _ _ hout
    unfold resolvePages
    rw [hchar, List.filter_append]
    rw [List.filter_eq_self.mpr (writeImages_all_img entries _)]
    have h2 : ((if hasMetadata pkg.metadata then
        [(⟨"ComicInfo.xml", .info (createComicInfo pkg.metadata)⟩ : OutEntry)]
       else []).filter isImg) = [] := by
      cases hmm : hasMetadata pkg.metadata
      · rfl
      · rfl
    rw [h2, List.append_nil, writeImages_length]
  · exact processFileWith_error_iff _ _ _ _

/-- C2 witness: the amended count law evaluated on the two-image run. -/
theorem claim2_witness :
    (([⟨"page0.jpg", .img (some [1])⟩, ⟨"page1.jpg", .img (some [2])⟩] :
        List OutEntry).filter isImg).length =
      ((collectImgSrcs entC2 (resolvePages "vol.opf" pkgOnePage)).filter
        (opensEntry entC2)).length :=
  (claim2_amended_image_count "vol.opf" pkgOnePage entC2).1 _ rfl

/-- C3 counterexample: with two qualifying spine pages whose first image
is absent from the archive, the first written entry is the second page's
image and is named `page1.png` — the k-th output entry does not correspond
to the k-th non-skipped spine entry. -/
theorem claim3_counterexample :
    processFileCore "vol.opf" pkgTwoPages entC3 = .ok [⟨"page1.png", .img (some [9])⟩] ∧
      resolvePages "vol.opf" pkgTwoPages = ["1.xhtml", "2.xhtml"] := by
  constructor
  · rfl
  · decide

/-- C3 amended: reading order is preserved at the granularity of image
references: the collected sequence is the concatenation, over the resolved
spine entries in original spine order (duplicates preserved), of each
page's references in document order; the written image entries are that
sequence filtered to the references that open, in the same order, each
named by its pre-skip position. -/
theorem claim3_amended_order_preserved (v : String) (pkg : Package) (entries : List ZEntry) :
    collectImgSrcs entries (resolvePages v pkg) =
      (resolvePages v pkg).flatMap (fun p => pageLoop entries p [])
    ∧ ∀ out, processFileCore v pkg entries = .ok out →
        out.filter isImg =
          ((collectImgSrcs entries (resolvePages v pkg)).enum.filter
            (fun p => opensEntry entries p.2)).map
            (fun p => ⟨goBase (normalizeImageName p.2 p.1
              (collectImgSrcs entries (resolvePages v pkg)).length), emitData entries p.2⟩) := by
  constructor
  · exact collectImgSrcs_eq entries _
  · intro out hout
    have hchar := processFileWith_ok _ _ _ _ _ hout
    unfold resolvePages
    rw [hchar, List.filter_append]
    rw [List.filter_eq_self.mpr (writeImages_all_img entries _)]
    have h2 : ((if hasMetadata pkg.metadata then
        [(⟨"ComicInfo.xml", .info (createComicInfo pkg.metadata)⟩ : OutEntry)]
       else []).filter isImg) = [] := by
      cases hmm : hasMetadata pkg.metadata
      · rfl
      · rfl
    rw [h2, List.append_nil, writeImages_eq]

/-- C3 witness: the amended order law evaluated on the missing-image run. -/
theorem claim3_witness :
    (([⟨"page1.png", .img (some [9])⟩] : List OutEntry).filter isImg) =
      ((collectImgSrcs entC3 (resolvePages "vol.opf" pkgTwoPages)).enum.filter
        (fun p => opensEntry entC3 p.2)).map
        (fun p => ⟨goBase (normalizeImageName p.2 p.1
          (collectImgSrcs entC3 (resolvePages "vol.opf" pkgTwoPages)).length),
          emitData entC3 p.2⟩) :=
  (claim3_amended_order_preserved "vol.opf" pkgTwoPages entC3).2 _ rfl

/-- C4 counterexample: a run that emits exactly one image names it
`page1.png`, not `page0.png`: the index is the entry's position in the
pre-skip collected sequence and the padding width comes from the pre-skip
total, not from the emitted count N. -/
theorem claim4_counterexample :
    processFileCore "vol.opf" pkgOnePage entC4 = .ok [⟨"page1.png", .img (some [5])⟩] ∧
      goBase (normalizeImageName "b.png" 1 2) = "page1.png" ∧
      "page1.png" ≠ "page0.png" := by
  refine ⟨rfl, by decide, by decide⟩

/-- C4 amended: each emitted entry is named `page`, followed by its
position in the collected image sequence zero-padded to the decimal digit
count of the collected (pre-skip) total, followed by the source image's
extension verbatim; when every collected image opens, the positions are
0..N-1 for the N emitted entries and the claim's examples hold. -/
theorem claim4_amended_entry_names (v : String) (pkg : Package) (entries : List ZEntry)
    (out : List OutEntry) (h : processFileCore v pkg entries = .ok out) :
    (out.filter isImg).map OutEntry.name =
      ((collectImgSrcs entries (resolvePages v pkg)).enum.filter
        (fun p => opensEntry entries p.2)).map
        (fun p => "page" ++
          String.mk (List.replicate
            ((itoa (collectImgSrcs entries (resolvePages v pkg)).length).length -
              (itoa p.1).length) '0') ++ itoa p.1 ++ goExt p.2) := by
  have hchar := processFileWith_ok _ _ _ _ _ h
  unfold resolvePages
  rw [hchar, List.filter_append]
  rw [List.filter_eq_self.mpr (writeImages_all_img entries _)]
  have h2 : ((if hasMetadata pkg.metadata then
      [(⟨"ComicInfo.xml", .info (createComicInfo pkg.metadata)⟩ : OutEntry)]
     else []).filter isImg) = [] := by
    cases hmm : hasMetadata pkg.metadata
    · rfl
    · rfl
  rw [h2, List.append_nil, writeImages_eq, List.map_map]
  apply List.map_congr_left
  intro p _
  show goBase (normalizeImageName p.2 p.1 _) = _
  rw [goBase_normalizeImageName]
  rfl

/-- C4 witness: the amended naming law evaluated on the gapped run. -/
theorem claim4_witness :
    (([⟨"page1.png", .img (some [5])⟩] : List OutEntry).filter isImg).map OutEntry.name =
      ((collectImgSrcs entC4 (resolvePages "vol.opf" pkgOnePage)).enum.filter
        (fun p => opensEntry entC4 p.2)).map
        (fun p => "page" ++
          String.mk (List.replicate
            ((itoa (collectImgSrcs entC4 (resolvePages "vol.opf" pkgOnePage)).length).length -
              (itoa p.1).length) '0') ++ itoa p.1 ++ goExt p.2) :=
  claim4_amended_entry_names "vol.opf" pkgOnePage entC4 _ rfl

/-- C5: a spine id with no manifest entry is skipped silently — removing
the dangling ids from the spine leaves the resolved page sequence
unchanged — and the run fails with the empty-spine error exactly when the
resolved page sequence is empty after the skipping. -/
theorem claim5_dangling_skip_empty_spine (v : String) (pkg : Package) (entries : List ZEntry) :
    (processFileCore v pkg entries = .error .emptySpine ↔ resolvePages v pkg = [])
    ∧ resolvePagesWith (mapPairs pkg.items) v
        (pkg.itemrefs.filter (fun r => (lookupPairs (mapPairs pkg.items) r).isSome)) =
      resolvePages v pkg :=
  ⟨processFileWith_error_iff _ _ _ _, resolvePagesWith_filter_dangling _ _ _⟩

/-- C5 witness: a package whose only spine id is dangling fails with the
empty-spine error. -/
theorem claim5_witness :
    processFileCore "vol.opf" pkgDangling [] = .error .emptySpine :=
  (claim5_dangling_skip_empty_spine "vol.opf" pkgDangling []).1.mpr rfl

/-- C6: a successful run's output carries a metadata entry if and only if
one of the eight recognized bibliographic fields has an occurrence in the
package metadata. -/
theorem claim6_metadata_presence (v : String) (pkg : Package) (entries : List ZEntry)
    (out : List OutEntry) (h : processFileCore v pkg entries = .ok out) :
    (∃ e ∈ out, isInfo e = true) ↔
      (pkg.metadata.title ≠ [] ∨ pkg.metadata.creator ≠ [] ∨ pkg.metadata.publisher ≠ [] ∨
       pkg.metadata.series ≠ [] ∨ pkg.metadata.date ≠ [] ∨ pkg.metadata.language ≠ [] ∨
       pkg.metadata.identifier ≠ [] ∨ pkg.metadata.number ≠ []) := by
  have hchar := processFileWith_ok _ _ _ _ _ h
  constructor
  · rintro ⟨e, he, hinfo⟩
    rw [hchar] at he
    rcases List.mem_append.mp he with h1 | h2
    · exact absurd ⟨writeImages_all_img _ _ e h1, hinfo⟩ (not_isImg_and_isInfo e)
    · by_cases hm : hasMetadata pkg.metadata = true
      · exact (hasMetadata_iff pkg.metadata).mp hm
      · rw [if_neg hm] at h2; cases h2
  · intro hdisj
    have hm : hasMetadata pkg.metadata = true := (hasMetadata_iff pkg.metadata).mpr hdisj
    refine ⟨⟨"ComicInfo.xml", .info (createComicInfo pkg.metadata)⟩, ?_, rfl⟩
    rw [hchar]
    apply List.mem_append_right
    rw [if_pos hm]
    exact List.mem_singleton.mpr rfl

/-- C6 witness: a title-only package yields a metadata entry. -/
theorem claim6_witness :
    ∃ e ∈ ([⟨"ComicInfo.xml", .info (createComicInfo metaTitle)⟩] : List OutEntry),
      isInfo e = true :=
  (claim6_metadata_presence "vol.opf" pkgC6 [] _ rfl).mpr (Or.inl (by decide))

/-- C7: every resolved page path is the manifest href joined against the
package document's directory, and every collected image reference is the
`src` value joined against its own page's directory; both are normalized
with the slash convention and never begin with a slash. -/
theorem claim7_path_resolution (v : String) (pkg : Package) :
    (∀ s ∈ resolvePages v pkg,
        (∃ r ∈ pkg.itemrefs, ∃ href, lookupPairs (mapPairs pkg.items) r = some href ∧
          s = trimLeadSlash (toSlash (goJoin (goDir v) href)))
        ∧ s.data.head? ≠ some '/')
    ∧ ∀ (pageHref : String) (doc : HNode), ∀ s ∈ imgRefs pageHref doc,
        (∃ val, s = trimLeadSlash (toSlash (goJoin (goDir pageHref) val)))
        ∧ s.data.head? ≠ some '/' := by
  constructor
  · intro s hs
    obtain ⟨r, hr, href, hl, hresolve⟩ := resolvePages_mem v pkg s hs
    exact ⟨⟨r, hr, href, hl, hresolve⟩, hresolve ▸ resolveRel_no_lead_slash v href⟩
  · intro pageHref doc s hs
    obtain ⟨val, hval⟩ := imgRefs_mem pageHref doc s hs
    exact ⟨⟨val, hval⟩, hval ▸ resolveRel_no_lead_slash pageHref val⟩

/-- C7 witness: the resolution law evaluated on a subdirectory layout. -/
theorem claim7_witness :
    (∃ r ∈ pkgC7.itemrefs, ∃ href, lookupPairs (mapPairs pkgC7.items) r = some href ∧
      "OEBPS/pages/1.xhtml" = trimLeadSlash (toSlash (goJoin (goDir "OEBPS/vol.opf") href)))
    ∧ ("OEBPS/pages/1.xhtml" : String).data.head? ≠ some '/' :=
  (claim7_path_resolution "OEBPS/vol.opf" pkgC7).1 "OEBPS/pages/1.xhtml" (by decide)

/-- C8: the Manga flag is `Yes` exactly when the mapped series title is
nonempty and some character lies in the Hiragana, Katakana or CJK range,
`No` exactly when the title is nonempty and no character does, and
`Unknown` exactly when the mapped series title is empty. -/
theorem claim8_manga_flag (m : Metadata) :
    ((createComicInfo m).manga = "Yes" ↔ getFirst m.series ≠ "" ∧
      ∃ c ∈ (getFirst m.series).data,
        (0x3040 ≤ c.toNat ∧ c.toNat ≤ 0x309F) ∨ (0x30A0 ≤ c.toNat ∧ c.toNat ≤ 0x30FF) ∨
        (0x4E00 ≤ c.toNat ∧ c.toNat ≤ 0x9FBF))
    ∧ ((createComicInfo m).manga = "No" ↔ getFirst m.series ≠ "" ∧
      ¬ ∃ c ∈ (getFirst m.series).data,
        (0x3040 ≤ c.toNat ∧ c.toNat ≤ 0x309F) ∨ (0x30A0 ≤ c.toNat ∧ c.toNat ≤ 0x30FF) ∨
        (0x4E00 ≤ c.toNat ∧ c.toNat ≤ 0x9FBF))
    ∧ ((createComicInfo m).manga = "Unknown" ↔ getFirst m.series = "") := by
  have hm : (createComicInfo m).manga =
      (if getFirst m.series ≠ "" then
        (if containsJapanese (getFirst m.series) then "Yes" else "No")
       else "Unknown") := rfl
  by_cases hs : getFirst m.series = ""
  · rw [hm, if_neg (by simpa using hs)]
    refine ⟨⟨fun hc => absurd hc (by decide), fun ⟨hne, _⟩ => absurd hs hne⟩,
      ⟨fun hc => absurd hc (by decide), fun ⟨hne, _⟩ => absurd hs hne⟩,
      ⟨fun _ => hs, fun _ => rfl⟩⟩
  · by_cases hj : containsJapanese (getFirst m.series) = true
    · rw [hm, if_pos hs, if_pos hj]
      refine ⟨⟨fun _ => ⟨hs, (containsJapanese_iff _).mp hj⟩, fun _ => rfl⟩,
        ⟨fun hc => absurd hc (by decide),
         fun ⟨_, hno⟩ => absurd ((containsJapanese_iff _).mp hj) hno⟩,
        ⟨fun hc => absurd hc (by decide), fun hc => absurd hc hs⟩⟩
    · rw [hm, if_pos hs, if_neg hj]
      refine ⟨⟨fun hc => absurd hc (by decide),
          fun ⟨_, hex⟩ => absurd ((containsJapanese_iff _).mpr hex) hj⟩,
        ⟨fun _ => ⟨hs, fun hex => hj ((containsJapanese_iff _).mpr hex)⟩, fun _ => rfl⟩,
        ⟨fun hc => absurd hc (by decide), fun hc => absurd hc hs⟩⟩

/-- C8 witness: a CJK series title receives the affirmative flag. -/
theorem claim8_witness : (createComicInfo metaC8).manga = "Yes" :=
  (claim8_manga_flag metaC8).1.mpr ⟨by decide, by decide⟩

/-- C9: the conversion is a deterministic function of the decoded input:
the only internal nondeterminism — the iteration order of the Go manifest
map — cannot influence the output, because the map is read only by key
lookup; any permutation of the map's contents yields the same result, so
two runs on the same input produce identical outputs. -/
theorem claim9_determinism (rep : List (String × String)) (v : String) (pkg : Package)
    (entries : List ZEntry) (h : rep.Perm (mapPairs pkg.items)) :
    processFileWith rep v pkg entries = processFileCore v pkg entries := by
  unfold processFileCore processFileWith
  rw [resolvePagesWith_perm rep v pkg.itemrefs pkg.items h]

/-- C9 witness: a reordered map representation produces the same output. -/
theorem claim9_witness :
    processFileWith [("b", "2.xhtml"), ("a", "1.xhtml")] "vol.opf" pkgC9 [] =
      processFileCore "vol.opf" pkgC9 [] :=
  claim9_determinism _ _ _ _ (by decide)

/-- C10: in the writing loop the sequential index advances per collected
reference whether or not the reference was written: the output is the
enumerated collected sequence filtered to the references that open, each
written under the name computed from its absolute position and from the
pre-skip collected total; in particular a later reference at position j is
always written under the position-j name, leaving gaps unnumbered. -/
theorem claim10_index_advance (entries : List ZEntry) (srcs : List String) :
    (writeImages entries srcs =
      (srcs.enum.filter (fun p => opensEntry entries p.2)).map
        (fun p => ⟨goBase (normalizeImageName p.2 p.1 srcs.length), emitData entries p.2⟩))
    ∧ ∀ j s, srcs.get? j = some s → opensEntry entries s = true →
        (⟨goBase (normalizeImageName s j srcs.length), emitData entries s⟩ : OutEntry) ∈
          writeImages entries srcs := by
  refine ⟨writeImages_eq entries srcs, ?_⟩
  intro j s hj hopen
  rw [writeImages_eq]
  apply List.mem_map.mpr
  refine ⟨(j, s), List.mem_filter.mpr ⟨?_, hopen⟩, rfl⟩
  have hmem := mem_enumFrom_of_get? srcs 0 j s hj
  simpa using hmem

/-- C10 witness: with the first of two collected references missing, the
surviving reference is still written under the position-1 name. -/
theorem claim10_witness :
    goBase (normalizeImageName "b.png" 1 2) = "page1.png" ∧
      (⟨goBase (normalizeImageName "b.png" 1 2), emitData entC10 "b.png"⟩ : OutEntry) ∈
        writeImages entC10 ["a.png", "b.png"] :=
  ⟨by decide, (claim10_index_advance entC10 ["a.png", "b.png"]).2 1 "b.png" rfl rfl⟩

end Epub
